import Mathlib

/-!
Shallow embedding of `pyscf/nao/m_ao_log_hartree.py`: radial Hartree-potential
solvers on a logarithmic grid.  Radial arrays are `List ℝ`; numpy's elementwise
operations become `List.zipWith`; the in-place overwrite of a deep copy becomes
a structural update that rewrites exactly the entries the Python loops touch.
-/

namespace PyscfNao

/-- `zipWithKeep f xs ys` rewrites `xs[i]` to `f xs[i] ys[i]` for every index the
two lists share and keeps the remaining tail of `xs` unchanged.  This is the
semantics of `for i,(x,y) in enumerate(zip(xs, ys)): xs[i] = f(x,y)` acting on a
deep copy of `xs`. -/
def zipWithKeep {α β : Type} (f : α → β → α) : List α → List β → List α
  | [], _ => []
  | xs, [] => xs
  | x :: xs, y :: ys => f x y :: zipWithKeep f xs ys

/-- Three-list variant of `zipWithKeep`: rewrites `xs[i]` from `xs[i]`, `ys[i]`,
`zs[i]` on the shared index range and keeps the tail of `xs`. -/
def zipWithKeep3 {α β γ : Type} (f : α → β → γ → α) : List α → List β → List γ → List α
  | [], _, _ => []
  | xs, [], _ => xs
  | xs, _, [] => xs
  | x :: xs, y :: ys, z :: zs => f x y z :: zipWithKeep3 f xs ys zs

theorem zipWithKeep_length {α β : Type} (f : α → β → α) (xs : List α) (ys : List β) :
    (zipWithKeep f xs ys).length = xs.length := by
  induction xs generalizing ys with
  | nil => cases ys <;> simp [zipWithKeep]
  | cons x xs ih => cases ys <;> simp [zipWithKeep, ih]

theorem zipWithKeep3_length {α β γ : Type} (f : α → β → γ → α) (xs : List α)
    (ys : List β) (zs : List γ) : (zipWithKeep3 f xs ys zs).length = xs.length := by
  induction xs generalizing ys zs with
  | nil => cases ys <;> cases zs <;> simp [zipWithKeep3]
  | cons x xs ih => cases ys <;> cases zs <;> simp [zipWithKeep3, ih]

theorem zipWithKeep_getD {α β : Type} (f : α → β → α) (xs : List α) (ys : List β)
    (i : ℕ) (hx : i < xs.length) (hy : i < ys.length) (d : α) (d' : β) :
    (zipWithKeep f xs ys).getD i d = f (xs.getD i d) (ys.getD i d') := by
  induction xs generalizing ys i with
  | nil => simp at hx
  | cons x xs ih =>
    cases ys with
    | nil => simp at hy
    | cons y ys =>
      cases i with
      | zero => simp [zipWithKeep]
      | succ n =>
        simp only [zipWithKeep, List.getD_cons_succ]
        exact ih ys n (by simpa using hx) (by simpa using hy)

theorem zipWithKeep3_getD {α β γ : Type} (f : α → β → γ → α) (xs : List α)
    (ys : List β) (zs : List γ) (i : ℕ) (hx : i < xs.length) (hy : i < ys.length)
    (hz : i < zs.length) (d : α) (d' : β) (d'' : γ) :
    (zipWithKeep3 f xs ys zs).getD i d = f (xs.getD i d) (ys.getD i d') (zs.getD i d'') := by
  induction xs generalizing ys zs i with
  | nil => simp at hx
  | cons x xs ih =>
    cases ys with
    | nil => simp at hy
    | cons y ys =>
      cases zs with
      | nil => simp at hz
      | cons z zs =>
        cases i with
        | zero => simp [zipWithKeep3]
        | succ n =>
          simp only [zipWithKeep3, List.getD_cons_succ]
          exact ih ys zs n (by simpa using hx) (by simpa using hy) (by simpa using hz)

theorem zipWith_getD {α β γ : Type} (f : α → β → γ) (xs : List α) (ys : List β)
    (i : ℕ) (hx : i < xs.length) (hy : i < ys.length) (d : γ) (d' : α) (d'' : β) :
    (List.zipWith f xs ys).getD i d = f (xs.getD i d') (ys.getD i d'') := by
  induction xs generalizing ys i with
  | nil => simp at hx
  | cons x xs ih =>
    cases ys with
    | nil => simp at hy
    | cons y ys =>
      cases i with
      | zero => simp
      | succ n =>
        simp only [List.zipWith_cons_cons, List.getD_cons_succ]
        exact ih ys n (by simpa using hx) (by simpa using hy)

theorem getD_map_range {α : Type} (g : ℕ → α) (n i : ℕ) (h : i < n) (d : α) :
    (((List.range n).map g).getD i d) = g i := by
  rw [List.getD_eq_getElem?_getD, List.getElem?_map, List.getElem?_range h]
  rfl

/-- Folding `fun acc i => acc + g i` over `List.range n` is the finite sum of
`g` over `Finset.range n`: the loop accumulation is the mathematical sum. -/
theorem foldl_add_range (g : ℕ → ℝ) (n : ℕ) (a : ℝ) :
    (List.range n).foldl (fun acc i => acc + g i) a = a + ∑ i ∈ Finset.range n, g i := by
  induction n generalizing a with
  | zero => simp
  | succ m ih =>
    rw [List.range_succ, List.foldl_append, ih, Finset.sum_range_succ]
    simp [add_assoc]

/-- The fields of an `ao_log` instance that `m_ao_log_hartree.py` reads or
writes: the radial grid `rr`, the reciprocal grid `pp`, per-species stacks of
radial functions `psi_log` and their `r^j`-rescaled form `psi_log_rl`, the
per-species angular momenta `sp_mu2j`, and the cutoff radii `sp_mu2rcut` and
`sp2rcut`. -/
structure AoLog where
  rr : List ℝ
  pp : List ℝ
  psi_log : List (List (List ℝ))
  psi_log_rl : List (List (List ℝ))
  sp_mu2j : List (List ℕ)
  sp_mu2rcut : List (List ℝ)
  sp2rcut : List ℝ

/-- `ao.nr`: the number of radial grid points. -/
def AoLog.nr (ao : AoLog) : ℕ := ao.rr.length

/-- `ao.nspecies`: the number of species. -/
def AoLog.nspecies (ao : AoLog) : ℕ := ao.psi_log.length

/-- `ao.jmx`: the maximal angular momentum over all species and multiplets. -/
def AoLog.jmx (ao : AoLog) : ℕ :=
  (ao.sp_mu2j.map fun l => l.foldr max 0).foldr max 0

/-- `dr = np.log(ao.rr[1]/ao.rr[0])`: the logarithmic grid spacing, read off
the first two grid points. -/
noncomputable def lapDr (rr : List ℝ) : ℝ := Real.log (rr.getD 1 0 / rr.getD 0 0)

/-- `ffrr3 = ff*ao.rr**3`: the elementwise integrand table. -/
noncomputable def ffrr3 (ff rr : List ℝ) : List ℝ :=
  List.zipWith (fun f r => f * r ^ 3) ff rr

/-- One term of the direct-quadrature double loop:
`rrl/rrg * ffrr3[irp]` with `rrl = min(rr[ir],rr[irp])**am` and
`rrg = max(rr[ir],rr[irp])**(am+1)`. -/
noncomputable def lapTerm (rr g : List ℝ) (am ir irp : ℕ) : ℝ :=
  (min (rr.getD ir 0) (rr.getD irp 0)) ^ am
    / (max (rr.getD ir 0) (rr.getD irp 0)) ^ (am + 1) * g.getD irp 0

/-- The inner loop `for irp in range(ao.nr): vff[ir] += rrl/rrg * ffrr3[irp]`
accumulating one output entry from `vff.fill(0.0)`. -/
noncomputable def lapRow (rr g : List ℝ) (am ir : ℕ) : ℝ :=
  (List.range rr.length).foldl (fun acc irp => acc + lapTerm rr g am ir irp) 0

/-- One multiplet of the direct-quadrature solver:
`(4*np.pi*dr)/(2*am+1.0) * vff`, the outer loop over `ir in range(ao.nr)`. -/
noncomputable def lapPot (rr : List ℝ) (dr : ℝ) (ff : List ℝ) (am : ℕ) : List ℝ :=
  (List.range rr.length).map fun ir =>
    4 * Real.pi * dr / (2 * (am : ℝ) + 1) * lapRow rr (ffrr3 ff rr) am ir

/-- Elementwise `v / ao.rr**am`: the rescaled form stored in `psi_log_rl`. -/
noncomputable def rescale (v rr : List ℝ) (am : ℕ) : List ℝ :=
  List.zipWith (fun x r => x / r ^ am) v rr

/-- `xs.fill(v)` on a numpy vector. -/
def fillAll (v : ℝ) (xs : List ℝ) : List ℝ := xs.map fun _ => v

/-- `for sp in range(n): xss[sp].fill(v)`: fill the first `n` rows. -/
def fillFirst (v : ℝ) : ℕ → List (List ℝ) → List (List ℝ)
  | _, [] => []
  | 0, xss => xss
  | n + 1, xs :: xss => fillAll v xs :: fillFirst v n xss

/-- `ao.rr[-1]`: the outermost radius of the grid. -/
def lastRadius (rr : List ℝ) : ℝ := rr.getD (rr.length - 1) 0

/-- `ao_log_hartree_lap`: the direct-quadrature Laplace solver.  Deep-copies
the input (`copy.deepcopy(ao)`), then for every species `sp` and every
multiplet `mu` in `zip(mu2ff, ao.sp_mu2j[sp])` overwrites
`psi_log[sp][mu] = (4*pi*dr)/(2*am+1) * vff` and
`psi_log_rl[sp][mu] = psi_log[sp][mu]/(ao.rr**am)`, and finally resets all
cutoffs to `ao.rr[-1]`. -/
noncomputable def ao_log_hartree_lap (ao : AoLog) : AoLog :=
  { ao with
    psi_log := zipWithKeep
      (fun mu2ff mu2j => zipWithKeep
        (fun ff am => lapPot ao.rr (lapDr ao.rr) ff am) mu2ff mu2j)
      ao.psi_log ao.sp_mu2j
    psi_log_rl := zipWithKeep3
      (fun rlsp ffsp jsp => zipWithKeep3
        (fun _ ff am => rescale (lapPot ao.rr (lapDr ao.rr) ff am) ao.rr am)
        rlsp ffsp jsp)
      ao.psi_log_rl ao.psi_log ao.sp_mu2j
    sp_mu2rcut := fillFirst (lastRadius ao.rr) ao.nspecies ao.sp_mu2rcut
    sp2rcut := fillAll (lastRadius ao.rr) ao.sp2rcut }

/-- Modelled from the spec: the spherical-Bessel-transform engine `sbt_c` of
`pyscf/nao/m_sbt.py` is not among the sources here; only its interface is
modelled.  A maker receives the constructor arguments `(rr, pp, lmax)` and
yields the transform `sbt(ff, am, direction)` (direction `1` forward, `-1`
inverse), a function from sampled values, order and direction to sampled
values. -/
def SbtEngineMaker : Type := List ℝ → List ℝ → ℕ → (List ℝ → ℕ → Int → List ℝ)

/-- Elementwise `v / ao.pp**2`: the reciprocal-space Coulomb weighting. -/
noncomputable def divPP (v pp : List ℝ) : List ℝ :=
  List.zipWith (fun x p => x / p ^ 2) v pp

/-- One multiplet of the SBT solver:
`(4*np.pi) * sbt.sbt( sbt.sbt( ff, am, 1)/ao.pp**2, am, -1)`. -/
noncomputable def sbtPot (run : List ℝ → ℕ → Int → List ℝ) (pp ff : List ℝ)
    (am : ℕ) : List ℝ :=
  (run (divPP (run ff am 1) pp) am (-1)).map fun x => 4 * Real.pi * x

/-- `ao_log_hartree_sbt`: builds one engine `sbt_c(ao.rr, ao.pp, lmax=ao.jmx)`,
deep-copies the input, overwrites every multiplet with the transform-space
solution and its rescaled form, and resets all cutoffs to `ao.rr[-1]`. -/
noncomputable def ao_log_hartree_sbt (mk : SbtEngineMaker) (ao : AoLog) : AoLog :=
  { ao with
    psi_log := zipWithKeep
      (fun mu2ff mu2j => zipWithKeep
        (fun ff am => sbtPot (mk ao.rr ao.pp ao.jmx) ao.pp ff am) mu2ff mu2j)
      ao.psi_log ao.sp_mu2j
    psi_log_rl := zipWithKeep3
      (fun rlsp ffsp jsp => zipWithKeep3
        (fun _ ff am => rescale (sbtPot (mk ao.rr ao.pp ao.jmx) ao.pp ff am) ao.rr am)
        rlsp ffsp jsp)
      ao.psi_log_rl ao.psi_log ao.sp_mu2j
    sp_mu2rcut := fillFirst (lastRadius ao.rr) ao.nspecies ao.sp_mu2rcut
    sp2rcut := fillAll (lastRadius ao.rr) ao.sp2rcut }

/-- Modelled from the spec: `ao_log_hartree_lap_libnao` calls the external
compiled backend `libnao.ao_hartree_lap`, whose contract is to be numerically
equivalent to the direct-quadrature solver on the same inputs; the backend is
therefore modelled as that solver. -/
noncomputable def ao_log_hartree_lap_libnao (ao : AoLog) : AoLog :=
  ao_log_hartree_lap ao

/-- `method.upper()`: uppercase every character of the method name. -/
def pyUpper (s : String) : String := ⟨s.data.map Char.toUpper⟩

/-- `ao_log_hartree(ao, method)`: dispatch on the upper-cased method name;
`'LAP'` selects the external-library Laplace path, `'SBT'` the transform path,
anything else raises `RuntimeError('!method')`. -/
noncomputable def ao_log_hartree (mk : SbtEngineMaker) (ao : AoLog)
    (method : String) : Except String AoLog :=
  if pyUpper method = "LAP" then .ok (ao_log_hartree_lap_libnao ao)
  else if pyUpper method = "SBT" then .ok (ao_log_hartree_sbt mk ao)
  else .error "!method"

theorem lap_psi_log_getD (ao : AoLog) (sp mu : ℕ)
    (hsp1 : sp < ao.psi_log.length) (hsp2 : sp < ao.sp_mu2j.length)
    (hmu1 : mu < (ao.psi_log.getD sp []).length)
    (hmu2 : mu < (ao.sp_mu2j.getD sp []).length) :
    ((ao_log_hartree_lap ao).psi_log.getD sp []).getD mu []
      = lapPot ao.rr (lapDr ao.rr) ((ao.psi_log.getD sp []).getD mu [])
          ((ao.sp_mu2j.getD sp []).getD mu 0) := by
  simp only [ao_log_hartree_lap]
  rw [zipWithKeep_getD _ ao.psi_log ao.sp_mu2j sp hsp1 hsp2 [] []]
  rw [zipWithKeep_getD _ _ _ mu hmu1 hmu2 [] 0]

theorem sbt_psi_log_getD (mk : SbtEngineMaker) (ao : AoLog) (sp mu : ℕ)
    (hsp1 : sp < ao.psi_log.length) (hsp2 : sp < ao.sp_mu2j.length)
    (hmu1 : mu < (ao.psi_log.getD sp []).length)
    (hmu2 : mu < (ao.sp_mu2j.getD sp []).length) :
    ((ao_log_hartree_sbt mk ao).psi_log.getD sp []).getD mu []
      = sbtPot (mk ao.rr ao.pp ao.jmx) ao.pp ((ao.psi_log.getD sp []).getD mu [])
          ((ao.sp_mu2j.getD sp []).getD mu 0) := by
  simp only [ao_log_hartree_sbt]
  rw [zipWithKeep_getD _ ao.psi_log ao.sp_mu2j sp hsp1 hsp2 [] []]
  rw [zipWithKeep_getD _ _ _ mu hmu1 hmu2 [] 0]

theorem lapRow_eq_sum (rr g : List ℝ) (am ir : ℕ) :
    lapRow rr g am ir = ∑ irp ∈ Finset.range rr.length, lapTerm rr g am ir irp := by
  have h := foldl_add_range (fun irp => lapTerm rr g am ir irp) rr.length 0
  simpa [lapRow] using h

/-- C1: the direct-quadrature Laplace solver returns, at every species `sp`,
multiplet `mu` with radial function `f` and angular momentum `j`, and grid
index `ir`, the value
`(4π·dr)/(2j+1) · Σ_irp min(rr[ir],rr[irp])^j / max(rr[ir],rr[irp])^(j+1) · f[irp] · rr[irp]^3`
with `dr = log(rr[1]/rr[0])`. -/
theorem lap_direct_quadrature_formula (ao : AoLog) (sp mu ir : ℕ)
    (hsp1 : sp < ao.psi_log.length) (hsp2 : sp < ao.sp_mu2j.length)
    (hmu1 : mu < (ao.psi_log.getD sp []).length)
    (hmu2 : mu < (ao.sp_mu2j.getD sp []).length)
    (hir : ir < ao.rr.length)
    (hlen : ((ao.psi_log.getD sp []).getD mu []).length = ao.rr.length) :
    (((ao_log_hartree_lap ao).psi_log.getD sp []).getD mu []).getD ir 0
      = 4 * Real.pi * Real.log (ao.rr.getD 1 0 / ao.rr.getD 0 0)
          / (2 * (((ao.sp_mu2j.getD sp []).getD mu 0 : ℕ) : ℝ) + 1)
        * ∑ irp ∈ Finset.range ao.rr.length,
            (min (ao.rr.getD ir 0) (ao.rr.getD irp 0))
                ^ ((ao.sp_mu2j.getD sp []).getD mu 0)
              / (max (ao.rr.getD ir 0) (ao.rr.getD irp 0))
                ^ ((ao.sp_mu2j.getD sp []).getD mu 0 + 1)
              * ((ao.psi_log.getD sp []).getD mu []).getD irp 0
              * (ao.rr.getD irp 0) ^ 3 := by
  rw [lap_psi_log_getD ao sp mu hsp1 hsp2 hmu1 hmu2]
  rw [lapPot, getD_map_range _ _ _ hir, lapRow_eq_sum, lapDr]
  congr 1
  refine Finset.sum_congr rfl fun irp hirp => ?_
  rw [Finset.mem_range] at hirp
  simp only [lapTerm, ffrr3]
  rw [zipWith_getD _ _ _ irp (by rw [hlen]; exact hirp) hirp 0 0 0, ← mul_assoc]

/-- A concrete 4-point set: the spec's end-to-end scenario `rr = [1,2,4,8]`,
one species with one multiplet, `j = 0`, `f = [1,1,1,1]`. -/
noncomputable def aoDemo : AoLog :=
  { rr := [1, 2, 4, 8]
    pp := [1, 2, 4, 8]
    psi_log := [[[1, 1, 1, 1]]]
    psi_log_rl := [[[1, 1, 1, 1]]]
    sp_mu2j := [[0]]
    sp_mu2rcut := [[3]]
    sp2rcut := [3] }

theorem lap_direct_quadrature_formula_check :
    (0 < aoDemo.psi_log.length ∧ 0 < aoDemo.sp_mu2j.length ∧
     0 < (aoDemo.psi_log.getD 0 []).length ∧ 0 < (aoDemo.sp_mu2j.getD 0 []).length ∧
     0 < aoDemo.rr.length ∧
     ((aoDemo.psi_log.getD 0 []).getD 0 []).length = aoDemo.rr.length) ∧
    (((ao_log_hartree_lap aoDemo).psi_log.getD 0 []).getD 0 []).getD 0 0
      = 4 * Real.pi * Real.log (aoDemo.rr.getD 1 0 / aoDemo.rr.getD 0 0)
          / (2 * (((aoDemo.sp_mu2j.getD 0 []).getD 0 0 : ℕ) : ℝ) + 1)
        * ∑ irp ∈ Finset.range aoDemo.rr.length,
            (min (aoDemo.rr.getD 0 0) (aoDemo.rr.getD irp 0))
                ^ ((aoDemo.sp_mu2j.getD 0 []).getD 0 0)
              / (max (aoDemo.rr.getD 0 0) (aoDemo.rr.getD irp 0))
                ^ ((aoDemo.sp_mu2j.getD 0 []).getD 0 0 + 1)
              * ((aoDemo.psi_log.getD 0 []).getD 0 []).getD irp 0
              * (aoDemo.rr.getD irp 0) ^ 3 :=
  ⟨⟨by decide, by decide, by decide, by decide, by decide, by decide⟩,
   lap_direct_quadrature_formula aoDemo 0 0 0 (by decide) (by decide) (by decide)
     (by decide) (by decide) (by decide)⟩

/-- A stand-in transform engine used to instantiate theorems at concrete
inputs: every transform returns the zero vector on the radial grid. -/
noncomputable def zeroSbt : SbtEngineMaker :=
  fun rr _ _ => fun _ _ _ => List.replicate rr.length 0

/-- C3: the dispatcher invokes the Laplace path exactly when the upper-cased
method name is `"LAP"`, the SBT path exactly when it is `"SBT"`, and fails
with the unsupported-method error on every other name without invoking either
solver. -/
theorem hartree_dispatch (mk : SbtEngineMaker) (ao : AoLog) (s : String) :
    (pyUpper s = "LAP" →
      ao_log_hartree mk ao s = .ok (ao_log_hartree_lap_libnao ao)) ∧
    (pyUpper s = "SBT" →
      ao_log_hartree mk ao s = .ok (ao_log_hartree_sbt mk ao)) ∧
    (pyUpper s ≠ "LAP" → pyUpper s ≠ "SBT" →
      ao_log_hartree mk ao s = .error "!method") := by
  refine ⟨fun h => ?_, fun h => ?_, fun h1 h2 => ?_⟩
  · unfold ao_log_hartree
    rw [if_pos h]
  · unfold ao_log_hartree
    rw [if_neg (by rw [h]; decide), if_pos h]
  · unfold ao_log_hartree
    rw [if_neg h1, if_neg h2]

theorem hartree_dispatch_check :
    (pyUpper "Lap" = "LAP" ∧
      ao_log_hartree zeroSbt aoDemo "Lap" = .ok (ao_log_hartree_lap_libnao aoDemo)) ∧
    (pyUpper "sBt" = "SBT" ∧
      ao_log_hartree zeroSbt aoDemo "sBt" = .ok (ao_log_hartree_sbt zeroSbt aoDemo)) ∧
    (pyUpper "xyz" ≠ "LAP" ∧ pyUpper "xyz" ≠ "SBT" ∧
      ao_log_hartree zeroSbt aoDemo "xyz" = .error "!method") :=
  ⟨⟨by decide, (hartree_dispatch zeroSbt aoDemo "Lap").1 (by decide)⟩,
   ⟨by decide, (hartree_dispatch zeroSbt aoDemo "sBt").2.1 (by decide)⟩,
   by decide, by decide,
   (hartree_dispatch zeroSbt aoDemo "xyz").2.2 (by decide) (by decide)⟩

theorem fillAll_getD (v : ℝ) (xs : List ℝ) (i : ℕ) (h : i < xs.length) :
    (fillAll v xs).getD i 0 = v := by
  induction xs generalizing i with
  | nil => simp at h
  | cons x xs ih =>
    cases i with
    | zero => simp [fillAll]
    | succ n =>
      simp only [fillAll, List.map_cons, List.getD_cons_succ]
      exact ih n (by simpa using h)

theorem fillFirst_getD (v : ℝ) (n : ℕ) (xss : List (List ℝ)) (i : ℕ)
    (hi : i < n) (hx : i < xss.length) :
    (fillFirst v n xss).getD i [] = fillAll v (xss.getD i []) := by
  induction xss generalizing n i with
  | nil => simp at hx
  | cons xs xss ih =>
    cases n with
    | zero => exact absurd hi (Nat.not_lt_zero i)
    | succ m =>
      cases i with
      | zero => simp [fillFirst]
      | succ k =>
        simp only [fillFirst, List.getD_cons_succ]
        exact ih m k (by omega) (by simpa using hx)

/-- C4: after each of the three solver paths (direct quadrature, SBT,
external-library), every per-multiplet cutoff and every per-species cutoff
equals the outermost grid radius `rr[N-1]`, regardless of the input cutoff
values. -/
theorem cutoff_reset (mk : SbtEngineMaker) (ao : AoLog) (sp mu : ℕ)
    (hsp : sp < ao.nspecies) (hsp1 : sp < ao.sp_mu2rcut.length)
    (hmu : mu < (ao.sp_mu2rcut.getD sp []).length) (hsp2 : sp < ao.sp2rcut.length) :
    (((ao_log_hartree_lap ao).sp_mu2rcut.getD sp []).getD mu 0
        = ao.rr.getD (ao.rr.length - 1) 0 ∧
      (ao_log_hartree_lap ao).sp2rcut.getD sp 0 = ao.rr.getD (ao.rr.length - 1) 0) ∧
    (((ao_log_hartree_sbt mk ao).sp_mu2rcut.getD sp []).getD mu 0
        = ao.rr.getD (ao.rr.length - 1) 0 ∧
      (ao_log_hartree_sbt mk ao).sp2rcut.getD sp 0 = ao.rr.getD (ao.rr.length - 1) 0) ∧
    (((ao_log_hartree_lap_libnao ao).sp_mu2rcut.getD sp []).getD mu 0
        = ao.rr.getD (ao.rr.length - 1) 0 ∧
      (ao_log_hartree_lap_libnao ao).sp2rcut.getD sp 0
        = ao.rr.getD (ao.rr.length - 1) 0) := by
  have hcut : (((fillFirst (lastRadius ao.rr) ao.nspecies ao.sp_mu2rcut).getD sp
      []).getD mu 0) = ao.rr.getD (ao.rr.length - 1) 0 := by
    rw [fillFirst_getD _ _ _ _ hsp hsp1, fillAll_getD _ _ _ hmu, lastRadius]
  have hcut2 : (fillAll (lastRadius ao.rr) ao.sp2rcut).getD sp 0
      = ao.rr.getD (ao.rr.length - 1) 0 := by
    rw [fillAll_getD _ _ _ hsp2, lastRadius]
  exact ⟨⟨hcut, hcut2⟩, ⟨hcut, hcut2⟩, hcut, hcut2⟩

theorem cutoff_reset_check :
    (0 < aoDemo.nspecies ∧ 0 < aoDemo.sp_mu2rcut.length ∧
     0 < (aoDemo.sp_mu2rcut.getD 0 []).length ∧ 0 < aoDemo.sp2rcut.length) ∧
    ((((ao_log_hartree_lap aoDemo).sp_mu2rcut.getD 0 []).getD 0 0
        = aoDemo.rr.getD (aoDemo.rr.length - 1) 0 ∧
      (ao_log_hartree_lap aoDemo).sp2rcut.getD 0 0
        = aoDemo.rr.getD (aoDemo.rr.length - 1) 0) ∧
     (((ao_log_hartree_sbt zeroSbt aoDemo).sp_mu2rcut.getD 0 []).getD 0 0
        = aoDemo.rr.getD (aoDemo.rr.length - 1) 0 ∧
      (ao_log_hartree_sbt zeroSbt aoDemo).sp2rcut.getD 0 0
        = aoDemo.rr.getD (aoDemo.rr.length - 1) 0) ∧
     (((ao_log_hartree_lap_libnao aoDemo).sp_mu2rcut.getD 0 []).getD 0 0
        = aoDemo.rr.getD (aoDemo.rr.length - 1) 0 ∧
      (ao_log_hartree_lap_libnao aoDemo).sp2rcut.getD 0 0
        = aoDemo.rr.getD (aoDemo.rr.length - 1) 0)) :=
  ⟨⟨by decide, by decide, by decide, by decide⟩,
   cutoff_reset zeroSbt aoDemo 0 0 (by decide) (by decide) (by decide) (by decide)⟩

theorem lap_psi_log_rl_getD (ao : AoLog) (sp mu : ℕ)
    (hsp1 : sp < ao.psi_log_rl.length) (hsp2 : sp < ao.psi_log.length)
    (hsp3 : sp < ao.sp_mu2j.length)
    (hmu1 : mu < (ao.psi_log_rl.getD sp []).length)
    (hmu2 : mu < (ao.psi_log.getD sp []).length)
    (hmu3 : mu < (ao.sp_mu2j.getD sp []).length) :
    ((ao_log_hartree_lap ao).psi_log_rl.getD sp []).getD mu []
      = rescale (lapPot ao.rr (lapDr ao.rr) ((ao.psi_log.getD sp []).getD mu [])
          ((ao.sp_mu2j.getD sp []).getD mu 0)) ao.rr
          ((ao.sp_mu2j.getD sp []).getD mu 0) := by
  simp only [ao_log_hartree_lap]
  rw [zipWithKeep3_getD _ ao.psi_log_rl ao.psi_log ao.sp_mu2j sp hsp1 hsp2 hsp3 [] [] []]
  rw [zipWithKeep3_getD _ _ _ _ mu hmu1 hmu2 hmu3 [] [] 0]

theorem sbt_psi_log_rl_getD (mk : SbtEngineMaker) (ao : AoLog) (sp mu : ℕ)
    (hsp1 : sp < ao.psi_log_rl.length) (hsp2 : sp < ao.psi_log.length)
    (hsp3 : sp < ao.sp_mu2j.length)
    (hmu1 : mu < (ao.psi_log_rl.getD sp []).length)
    (hmu2 : mu < (ao.psi_log.getD sp []).length)
    (hmu3 : mu < (ao.sp_mu2j.getD sp []).length) :
    ((ao_log_hartree_sbt mk ao).psi_log_rl.getD sp []).getD mu []
      = rescale (sbtPot (mk ao.rr ao.pp ao.jmx) ao.pp
          ((ao.psi_log.getD sp []).getD mu [])
          ((ao.sp_mu2j.getD sp []).getD mu 0)) ao.rr
          ((ao.sp_mu2j.getD sp []).getD mu 0) := by
  simp only [ao_log_hartree_sbt]
  rw [zipWithKeep3_getD _ ao.psi_log_rl ao.psi_log ao.sp_mu2j sp hsp1 hsp2 hsp3 [] [] []]
  rw [zipWithKeep3_getD _ _ _ _ mu hmu1 hmu2 hmu3 [] [] 0]

/-- C5: for every multiplet produced by either solver and every grid index,
the stored rescaled function equals the potential divided by `rr[ir]^j`. -/
theorem rescaled_form_consistency (mk : SbtEngineMaker) (ao : AoLog) (sp mu ir : ℕ)
    (hsp1 : sp < ao.psi_log.length) (hsp2 : sp < ao.sp_mu2j.length)
    (hsp3 : sp < ao.psi_log_rl.length)
    (hmu1 : mu < (ao.psi_log.getD sp []).length)
    (hmu2 : mu < (ao.sp_mu2j.getD sp []).length)
    (hmu3 : mu < (ao.psi_log_rl.getD sp []).length)
    (hir : ir < ao.rr.length)
    (hrun : ∀ f j d, (mk ao.rr ao.pp ao.jmx f j d).length = ao.rr.length) :
    ((((ao_log_hartree_lap ao).psi_log_rl.getD sp []).getD mu []).getD ir 0
      = (((ao_log_hartree_lap ao).psi_log.getD sp []).getD mu []).getD ir 0
        / (ao.rr.getD ir 0) ^ ((ao.sp_mu2j.getD sp []).getD mu 0)) ∧
    ((((ao_log_hartree_sbt mk ao).psi_log_rl.getD sp []).getD mu []).getD ir 0
      = (((ao_log_hartree_sbt mk ao).psi_log.getD sp []).getD mu []).getD ir 0
        / (ao.rr.getD ir 0) ^ ((ao.sp_mu2j.getD sp []).getD mu 0)) := by
  constructor
  · rw [lap_psi_log_rl_getD ao sp mu hsp3 hsp1 hsp2 hmu3 hmu1 hmu2,
      lap_psi_log_getD ao sp mu hsp1 hsp2 hmu1 hmu2, rescale]
    exact zipWith_getD _ _ _ ir (by simpa [lapPot] using hir) hir 0 0 0
  · rw [sbt_psi_log_rl_getD mk ao sp mu hsp3 hsp1 hsp2 hmu3 hmu1 hmu2,
      sbt_psi_log_getD mk ao sp mu hsp1 hsp2 hmu1 hmu2, rescale]
    refine zipWith_getD _ _ _ ir ?_ hir 0 0 0
    simp only [sbtPot, List.length_map]
    rw [hrun]
    exact hir

theorem rescaled_form_consistency_check :
    (0 < aoDemo.psi_log.length ∧ 0 < aoDemo.sp_mu2j.length ∧
     0 < aoDemo.psi_log_rl.length ∧ 0 < (aoDemo.psi_log.getD 0 []).length ∧
     0 < (aoDemo.sp_mu2j.getD 0 []).length ∧
     0 < (aoDemo.psi_log_rl.getD 0 []).length ∧ 0 < aoDemo.rr.length ∧
     (∀ f j d, (zeroSbt aoDemo.rr aoDemo.pp aoDemo.jmx f j d).length
        = aoDemo.rr.length)) ∧
    (((((ao_log_hartree_lap aoDemo).psi_log_rl.getD 0 []).getD 0 []).getD 0 0
      = (((ao_log_hartree_lap aoDemo).psi_log.getD 0 []).getD 0 []).getD 0 0
        / (aoDemo.rr.getD 0 0) ^ ((aoDemo.sp_mu2j.getD 0 []).getD 0 0)) ∧
     ((((ao_log_hartree_sbt zeroSbt aoDemo).psi_log_rl.getD 0 []).getD 0 []).getD 0 0
      = (((ao_log_hartree_sbt zeroSbt aoDemo).psi_log.getD 0 []).getD 0 []).getD 0 0
        / (aoDemo.rr.getD 0 0) ^ ((aoDemo.sp_mu2j.getD 0 []).getD 0 0))) :=
  ⟨⟨by decide, by decide, by decide, by decide, by decide, by decide, by decide,
    fun f j d => by simp [zeroSbt]⟩,
   rescaled_form_consistency zeroSbt aoDemo 0 0 0 (by decide) (by decide) (by decide)
     (by decide) (by decide) (by decide) (by decide) (fun f j d => by simp [zeroSbt])⟩

theorem zipWithKeep_getD_keep {α β : Type} (f : α → β → α) (xs : List α)
    (ys : List β) (i : ℕ) (h : ys.length ≤ i) (d : α) :
    (zipWithKeep f xs ys).getD i d = xs.getD i d := by
  induction xs generalizing ys i with
  | nil => simp [zipWithKeep]
  | cons x xs ih =>
    cases ys with
    | nil => simp [zipWithKeep]
    | cons y ys =>
      cases i with
      | zero => simp at h
      | succ n =>
        simp only [zipWithKeep, List.getD_cons_succ]
        exact ih ys n (by simpa using h)

theorem outer_getD_length {g : List ℝ → ℕ → List ℝ} (xs : List (List (List ℝ)))
    (ys : List (List ℕ)) (sp : ℕ) :
    ((zipWithKeep (fun mu2ff mu2j => zipWithKeep g mu2ff mu2j) xs ys).getD sp []).length
      = (xs.getD sp []).length := by
  by_cases h1 : sp < xs.length
  · by_cases h2 : sp < ys.length
    · rw [zipWithKeep_getD _ xs ys sp h1 h2 [] []]
      exact zipWithKeep_length _ _ _
    · rw [zipWithKeep_getD_keep _ xs ys sp (Nat.le_of_not_lt h2)]
  · rw [List.getD_eq_default _ _ (by rw [zipWithKeep_length]; omega),
      List.getD_eq_default _ _ (by omega)]

/-- C6: both solvers preserve the orbital set's shape: same species count,
same multiplet count for every species, unchanged angular-momentum
assignments, and radial arrays of the grid's length `N` for every multiplet
the loops touch. -/
theorem shape_preservation (mk : SbtEngineMaker) (ao : AoLog)
    (hrun : ∀ f j d, (mk ao.rr ao.pp ao.jmx f j d).length = ao.rr.length) :
    ((ao_log_hartree_lap ao).psi_log.length = ao.psi_log.length ∧
     (∀ sp, ((ao_log_hartree_lap ao).psi_log.getD sp []).length
        = (ao.psi_log.getD sp []).length) ∧
     (ao_log_hartree_lap ao).sp_mu2j = ao.sp_mu2j ∧
     (∀ sp mu, sp < ao.psi_log.length → sp < ao.sp_mu2j.length →
       mu < (ao.psi_log.getD sp []).length → mu < (ao.sp_mu2j.getD sp []).length →
       (((ao_log_hartree_lap ao).psi_log.getD sp []).getD mu []).length
         = ao.rr.length)) ∧
    ((ao_log_hartree_sbt mk ao).psi_log.length = ao.psi_log.length ∧
     (∀ sp, ((ao_log_hartree_sbt mk ao).psi_log.getD sp []).length
        = (ao.psi_log.getD sp []).length) ∧
     (ao_log_hartree_sbt mk ao).sp_mu2j = ao.sp_mu2j ∧
     (∀ sp mu, sp < ao.psi_log.length → sp < ao.sp_mu2j.length →
       mu < (ao.psi_log.getD sp []).length → mu < (ao.sp_mu2j.getD sp []).length →
       (((ao_log_hartree_sbt mk ao).psi_log.getD sp []).getD mu []).length
         = ao.rr.length)) := by
  refine ⟨⟨?_, ?_, rfl, ?_⟩, ⟨?_, ?_, rfl, ?_⟩⟩
  · simp only [ao_log_hartree_lap]
    exact zipWithKeep_length _ _ _
  · intro sp
    simp only [ao_log_hartree_lap]
    exact outer_getD_length ao.psi_log ao.sp_mu2j sp
  · intro sp mu h1 h2 h3 h4
    rw [lap_psi_log_getD ao sp mu h1 h2 h3 h4]
    simp [lapPot]
  · simp only [ao_log_hartree_sbt]
    exact zipWithKeep_length _ _ _
  · intro sp
    simp only [ao_log_hartree_sbt]
    exact outer_getD_length ao.psi_log ao.sp_mu2j sp
  · intro sp mu h1 h2 h3 h4
    rw [sbt_psi_log_getD mk ao sp mu h1 h2 h3 h4]
    simp only [sbtPot, List.length_map]
    exact hrun _ _ _

theorem shape_preservation_check :
    (∀ f j d, (zeroSbt aoDemo.rr aoDemo.pp aoDemo.jmx f j d).length
        = aoDemo.rr.length) ∧
    (((ao_log_hartree_lap aoDemo).psi_log.length = aoDemo.psi_log.length ∧
      (∀ sp, ((ao_log_hartree_lap aoDemo).psi_log.getD sp []).length
         = (aoDemo.psi_log.getD sp []).length) ∧
      (ao_log_hartree_lap aoDemo).sp_mu2j = aoDemo.sp_mu2j ∧
      (∀ sp mu, sp < aoDemo.psi_log.length → sp < aoDemo.sp_mu2j.length →
        mu < (aoDemo.psi_log.getD sp []).length →
        mu < (aoDemo.sp_mu2j.getD sp []).length →
        (((ao_log_hartree_lap aoDemo).psi_log.getD sp []).getD mu []).length
          = aoDemo.rr.length)) ∧
     ((ao_log_hartree_sbt zeroSbt aoDemo).psi_log.length = aoDemo.psi_log.length ∧
      (∀ sp, ((ao_log_hartree_sbt zeroSbt aoDemo).psi_log.getD sp []).length
         = (aoDemo.psi_log.getD sp []).length) ∧
      (ao_log_hartree_sbt zeroSbt aoDemo).sp_mu2j = aoDemo.sp_mu2j ∧
      (∀ sp mu, sp < aoDemo.psi_log.length → sp < aoDemo.sp_mu2j.length →
        mu < (aoDemo.psi_log.getD sp []).length →
        mu < (aoDemo.sp_mu2j.getD sp []).length →
        (((ao_log_hartree_sbt zeroSbt aoDemo).psi_log.getD sp []).getD mu []).length
          = aoDemo.rr.length))) :=
  ⟨fun f j d => by simp [zeroSbt],
   shape_preservation zeroSbt aoDemo (fun f j d => by simp [zeroSbt])⟩

theorem getD_pos (rr : List ℝ) (hpos : ∀ r ∈ rr, 0 < r) (i : ℕ)
    (h : i < rr.length) : 0 < rr.getD i 0 := by
  simp only [List.getD_eq_getElem?_getD, List.getElem?_eq_getElem h, Option.getD_some]
  exact hpos _ (List.getElem_mem h)

/-- C8: on the diagonal `ir = irp` the accumulated kernel term equals
`f[ir]·rr[ir]^3 / rr[ir]`; for a strictly positive grid no denominator of the
double loop vanishes; and the diagonal term enters the row sum exactly like
every other term, with no special-casing. -/
theorem lap_diagonal_term (rr ff : List ℝ) (am ir : ℕ)
    (hpos : ∀ r ∈ rr, 0 < r) (hir : ir < rr.length) (hlen : ff.length = rr.length) :
    lapTerm rr (ffrr3 ff rr) am ir ir
        = ff.getD ir 0 * (rr.getD ir 0) ^ 3 / rr.getD ir 0 ∧
    (∀ irp, irp < rr.length →
        (max (rr.getD ir 0) (rr.getD irp 0)) ^ (am + 1) ≠ 0) ∧
    lapRow rr (ffrr3 ff rr) am ir
      = lapTerm rr (ffrr3 ff rr) am ir ir
        + ∑ irp ∈ (Finset.range rr.length).erase ir,
            lapTerm rr (ffrr3 ff rr) am ir irp := by
  have hx : 0 < rr.getD ir 0 := getD_pos rr hpos ir hir
  have hx0 : rr.getD ir 0 ≠ 0 := ne_of_gt hx
  have hxp : (rr.getD ir 0) ^ am ≠ 0 := pow_ne_zero _ hx0
  refine ⟨?_, ?_, ?_⟩
  · simp only [lapTerm, min_self, max_self, ffrr3]
    rw [zipWith_getD _ _ _ ir (by rw [hlen]; exact hir) hir 0 0 0, pow_succ,
      div_mul_eq_div_div, div_self hxp, one_div, inv_mul_eq_div]
  · intro irp _
    exact ne_of_gt (pow_pos (lt_of_lt_of_le hx (le_max_left _ _)) _)
  · rw [lapRow_eq_sum]
    exact (Finset.add_sum_erase _ _ (Finset.mem_range.2 hir)).symm

theorem lap_diagonal_term_check :
    ((∀ r ∈ aoDemo.rr, 0 < r) ∧ 0 < aoDemo.rr.length ∧
     ((aoDemo.psi_log.getD 0 []).getD 0 []).length = aoDemo.rr.length) ∧
    (lapTerm aoDemo.rr (ffrr3 ((aoDemo.psi_log.getD 0 []).getD 0 []) aoDemo.rr) 0 0 0
        = ((aoDemo.psi_log.getD 0 []).getD 0 []).getD 0 0 * (aoDemo.rr.getD 0 0) ^ 3
          / aoDemo.rr.getD 0 0 ∧
     (∀ irp, irp < aoDemo.rr.length →
        (max (aoDemo.rr.getD 0 0) (aoDemo.rr.getD irp 0)) ^ (0 + 1) ≠ 0) ∧
     lapRow aoDemo.rr (ffrr3 ((aoDemo.psi_log.getD 0 []).getD 0 []) aoDemo.rr) 0 0
       = lapTerm aoDemo.rr (ffrr3 ((aoDemo.psi_log.getD 0 []).getD 0 []) aoDemo.rr) 0 0 0
         + ∑ irp ∈ (Finset.range aoDemo.rr.length).erase 0,
             lapTerm aoDemo.rr
               (ffrr3 ((aoDemo.psi_log.getD 0 []).getD 0 []) aoDemo.rr) 0 0 irp) :=
  ⟨⟨by norm_num [aoDemo], by decide, by decide⟩,
   lap_diagonal_term aoDemo.rr ((aoDemo.psi_log.getD 0 []).getD 0 []) 0 0
     (by norm_num [aoDemo]) (by decide) (by decide)⟩

/-- C9: the SBT solver's output multiplet is `4π` times the inverse transform
of order `j` applied to the forward transform of order `j` of `f` weighted by
`1/p²`, with a single engine built from `(rr, pp, jmx)` and reused for both
directions on every multiplet. -/
theorem sbt_solver_formula (mk : SbtEngineMaker) (ao : AoLog) (sp mu : ℕ)
    (hpp : ∀ p ∈ ao.pp, 0 < p)
    (hsp1 : sp < ao.psi_log.length) (hsp2 : sp < ao.sp_mu2j.length)
    (hmu1 : mu < (ao.psi_log.getD sp []).length)
    (hmu2 : mu < (ao.sp_mu2j.getD sp []).length) :
    ((ao_log_hartree_sbt mk ao).psi_log.getD sp []).getD mu []
      = ((mk ao.rr ao.pp ao.jmx)
          (divPP ((mk ao.rr ao.pp ao.jmx) ((ao.psi_log.getD sp []).getD mu [])
              ((ao.sp_mu2j.getD sp []).getD mu 0) 1) ao.pp)
          ((ao.sp_mu2j.getD sp []).getD mu 0) (-1)).map
            (fun x => 4 * Real.pi * x) := by
  rw [sbt_psi_log_getD mk ao sp mu hsp1 hsp2 hmu1 hmu2, sbtPot]

theorem sbt_solver_formula_check :
    ((∀ p ∈ aoDemo.pp, 0 < p) ∧ 0 < aoDemo.psi_log.length ∧
     0 < aoDemo.sp_mu2j.length ∧ 0 < (aoDemo.psi_log.getD 0 []).length ∧
     0 < (aoDemo.sp_mu2j.getD 0 []).length) ∧
    ((ao_log_hartree_sbt zeroSbt aoDemo).psi_log.getD 0 []).getD 0 []
      = ((zeroSbt aoDemo.rr aoDemo.pp aoDemo.jmx)
          (divPP ((zeroSbt aoDemo.rr aoDemo.pp aoDemo.jmx)
              ((aoDemo.psi_log.getD 0 []).getD 0 [])
              ((aoDemo.sp_mu2j.getD 0 []).getD 0 0) 1) aoDemo.pp)
          ((aoDemo.sp_mu2j.getD 0 []).getD 0 0) (-1)).map
            (fun x => 4 * Real.pi * x) :=
  ⟨⟨by norm_num [aoDemo], by decide, by decide, by decide, by decide⟩,
   sbt_solver_formula zeroSbt aoDemo 0 0 (by norm_num [aoDemo]) (by decide)
     (by decide) (by decide) (by decide)⟩

/-- A second concrete orbital set whose grid agrees with `aoDemo`'s on the
first two points but is not uniformly log-spaced beyond them. -/
noncomputable def aoDemo2 : AoLog :=
  { rr := [1, 2, 5, 7]
    pp := [1, 2, 4, 8]
    psi_log := [[[1, 1, 1, 1]]]
    psi_log_rl := [[[1, 1, 1, 1]]]
    sp_mu2j := [[0]]
    sp_mu2rcut := [[3]]
    sp2rcut := [3] }

/-- C10: the direct-quadrature solver takes its spacing `dr` from the first
two grid points only — any two grids agreeing there yield the same `dr`, with
no uniformity check — and that single scalar multiplies every row of every
multiplet. -/
theorem dr_first_two_points (ao ao2 : AoLog)
    (h0 : ao.rr.getD 0 0 = ao2.rr.getD 0 0)
    (h1 : ao.rr.getD 1 0 = ao2.rr.getD 1 0) :
    lapDr ao.rr = lapDr ao2.rr ∧
    ∀ sp mu ir, sp < ao.psi_log.length → sp < ao.sp_mu2j.length →
      mu < (ao.psi_log.getD sp []).length → mu < (ao.sp_mu2j.getD sp []).length →
      ir < ao.rr.length →
      (((ao_log_hartree_lap ao).psi_log.getD sp []).getD mu []).getD ir 0
        = 4 * Real.pi * lapDr ao.rr
            / (2 * (((ao.sp_mu2j.getD sp []).getD mu 0 : ℕ) : ℝ) + 1)
          * lapRow ao.rr (ffrr3 ((ao.psi_log.getD sp []).getD mu []) ao.rr)
              ((ao.sp_mu2j.getD sp []).getD mu 0) ir := by
  constructor
  · rw [lapDr, lapDr, h0, h1]
  · intro sp mu ir hsp1 hsp2 hmu1 hmu2 hir
    rw [lap_psi_log_getD ao sp mu hsp1 hsp2 hmu1 hmu2, lapPot,
      getD_map_range _ _ _ hir]

theorem dr_first_two_points_check :
    (aoDemo.rr.getD 0 0 = aoDemo2.rr.getD 0 0 ∧
     aoDemo.rr.getD 1 0 = aoDemo2.rr.getD 1 0) ∧
    (lapDr aoDemo.rr = lapDr aoDemo2.rr ∧
     ∀ sp mu ir, sp < aoDemo.psi_log.length → sp < aoDemo.sp_mu2j.length →
       mu < (aoDemo.psi_log.getD sp []).length →
       mu < (aoDemo.sp_mu2j.getD sp []).length →
       ir < aoDemo.rr.length →
       (((ao_log_hartree_lap aoDemo).psi_log.getD sp []).getD mu []).getD ir 0
         = 4 * Real.pi * lapDr aoDemo.rr
             / (2 * (((aoDemo.sp_mu2j.getD sp []).getD mu 0 : ℕ) : ℝ) + 1)
           * lapRow aoDemo.rr
               (ffrr3 ((aoDemo.psi_log.getD sp []).getD mu []) aoDemo.rr)
               ((aoDemo.sp_mu2j.getD sp []).getD mu 0) ir) :=
  ⟨⟨rfl, rfl⟩, dr_first_two_points aoDemo aoDemo2 rfl rfl⟩

end PyscfNao
